import Mathlib

/-!
A shallow embedding of the indexing/search core of the Attestati repository
(`src/routes/attestati.py`), together with proofs about the claims of its
specification.

Strings are embedded as Lean `String`s / `List Char`; the Python regular
expressions of the source are specialised into explicit character scanners;
the external libraries (`unidecode`, PyMuPDF) are modelled at their
documented boundary:
  * `unidecodeChar` models `unidecode` restricted to the Latin-1 range the
    document family uses; its essential property (output is pure ASCII,
    ASCII is left unchanged) matches the library contract.
  * a source document is modelled as a list of per-page extraction results;
    `none` for a page models `page.get_text()` raising, `none` for the whole
    document models `fitz.open` raising.
Python `float` ratio comparison `x/max(1,t) > 0.9` is modelled by the exact
integer inequality `10*x > 9*max(1,t)`; for the string lengths involved the
two are equivalent (the nearest double to 0.9 is above 9/10, and quotients
of small naturals cannot fall between them without being equal to 9/10).
-/

namespace Attestati

/-! ## Character-level helpers -/

/-- Python `\s` / `str.strip` whitespace, restricted to ASCII (the text the
normaliser sees after transliteration, and the whitespace PyMuPDF emits). -/
def pySpace (c : Char) : Bool :=
  c = ' ' || c = '\t' || c = '\n' || c = '\r' || c = '\x0b' || c = '\x0c'

/-- ASCII lower-casing, as performed by `str.lower` on ASCII input and by
`re.IGNORECASE` matching of the ASCII label patterns. -/
def asciiLower (c : Char) : Char :=
  if 'A' ≤ c ∧ c ≤ 'Z' then Char.ofNat (c.toNat + 32) else c

/-- Python `str.isalpha` over the ASCII + Latin-1 range of the document
family (letters; `×` and `÷` are not letters). -/
def pyIsAlpha (c : Char) : Bool :=
  ('A' ≤ c && c ≤ 'Z') || ('a' ≤ c && c ≤ 'z') ||
    (192 ≤ c.toNat && c.toNat ≤ 255 && c.toNat ≠ 215 && c.toNat ≠ 247)

/-- Python `str.isupper` for a single character over the same range. -/
def pyIsUpper (c : Char) : Bool :=
  ('A' ≤ c && c ≤ 'Z') || (192 ≤ c.toNat && c.toNat ≤ 222 && c.toNat ≠ 215)

/-- Python `\w` (word character) over the same range: letters, digits, `_`. -/
def isWordCh (c : Char) : Bool :=
  pyIsAlpha c || c.isDigit || c = '_'

/-- Python `str.upper` for one character over the ASCII + Latin-1 range:
`a`–`z` and `à`–`þ` (skipping `÷`) shift down by 32, `ß` expands to `SS`,
`ÿ` maps to `Ÿ` (U+0178); everything else is unchanged. -/
def pyUpperChar (c : Char) : List Char :=
  if 'a' ≤ c ∧ c ≤ 'z' then [Char.ofNat (c.toNat - 32)]
  else if c.toNat = 223 then ['S', 'S']
  else if 224 ≤ c.toNat ∧ c.toNat ≤ 254 ∧ c.toNat ≠ 223 ∧ c.toNat ≠ 247 then
    [Char.ofNat (c.toNat - 32)]
  else if c.toNat = 255 then [Char.ofNat 376]
  else [c]

/-- Model of `unidecode.unidecode` on one character, restricted to the
Latin-1 letters (plus the typographic apostrophe) that occur in this
document family.  ASCII input is returned unchanged — the documented
contract of the library — and every output character is ASCII. -/
def unidecodeRanges : List (Nat × Nat × List Char) :=
  [(192, 197, ['A']), (198, 198, ['A', 'E']), (199, 199, ['C']),
   (200, 203, ['E']), (204, 207, ['I']), (209, 209, ['N']),
   (208, 208, ['D']), (210, 214, ['O']), (215, 215, ['x']),
   (216, 216, ['O']), (217, 220, ['U']), (221, 221, ['Y']),
   (222, 222, ['T', 'h']), (223, 223, ['s', 's']), (224, 229, ['a']),
   (230, 230, ['a', 'e']), (231, 231, ['c']), (232, 235, ['e']),
   (236, 239, ['i']), (240, 240, ['d']), (241, 241, ['n']),
   (242, 246, ['o']), (247, 247, ['/']), (248, 248, ['o']),
   (249, 252, ['u']), (253, 253, ['y']), (254, 254, ['t', 'h']),
   (255, 255, ['y']), (8217, 8217, ['\''])]

/-- Table lookup for the non-ASCII part of `unidecodeChar`: characters not
covered transliterate to the empty string. -/
def unidecodeHigh (n : Nat) : List Char :=
  match unidecodeRanges.find? fun r => decide (r.1 ≤ n ∧ n ≤ r.2.1) with
  | some r => r.2.2
  | none => []

def unidecodeChar (c : Char) : List Char :=
  if c.toNat < 128 then [c] else unidecodeHigh c.toNat

/-! ## List/string helpers -/

/-- `re.sub(r"\s+", " ", ·)`: every maximal whitespace run becomes one
space.  The boolean state records whether the previous character was part
of a whitespace run. -/
def squeezeAux : Bool → List Char → List Char
  | _, [] => []
  | prevSp, c :: rest =>
    if pySpace c then
      if prevSp then squeezeAux true rest
      else ' ' :: squeezeAux true rest
    else c :: squeezeAux false rest

def squeezeL (l : List Char) : List Char := squeezeAux false l

/-- `str.strip()` on a character list. -/
def pyStripL (l : List Char) : List Char :=
  (((l.dropWhile pySpace).reverse.dropWhile pySpace)).reverse

def pyStrip (s : String) : String := ⟨pyStripL s.data⟩

/-- `str.splitlines()` (restricted to the `\n`, `\r`, `\r\n` terminators
PyMuPDF text uses): terminator-separated lines, no trailing empty line. -/
def splitlinesAux (cur : List Char) : List Char → List String
  | [] => if cur.isEmpty then [] else [⟨cur.reverse⟩]
  | '\r' :: '\n' :: rest => ⟨cur.reverse⟩ :: splitlinesAux [] rest
  | c :: rest =>
    if c = '\n' ∨ c = '\r' then ⟨cur.reverse⟩ :: splitlinesAux [] rest
    else splitlinesAux (c :: cur) rest

def splitlines (s : String) : List String := splitlinesAux [] s.data

/-- `str.split()` with no argument: whitespace-run separated words,
empties discarded. -/
def pySplitAux (cur : List Char) : List Char → List (List Char)
  | [] => if cur.isEmpty then [] else [cur.reverse]
  | c :: rest =>
    if pySpace c then
      if cur.isEmpty then pySplitAux [] rest
      else cur.reverse :: pySplitAux [] rest
    else pySplitAux (c :: cur) rest

def pySplit (l : List Char) : List (List Char) := pySplitAux [] l

/-- Substring test (`needle in hay` on Python strings). -/
def isSubstr (needle : List Char) : List Char → Bool
  | [] => needle.isEmpty
  | c :: rest => needle.isPrefixOf (c :: rest) || isSubstr needle rest

/-! ## The normaliser (`norm`) -/

def typAposL (l : List Char) : List Char :=
  l.map fun c => if c = '’' then '\'' else c

def unidecodeL (l : List Char) : List Char := l.flatMap unidecodeChar

/-- `re.sub(r"['’]", " ", ·)`. -/
def aposSubL (l : List Char) : List Char :=
  l.map fun c => if c = '\'' || c = '’' then ' ' else c

def lowerL (l : List Char) : List Char := l.map asciiLower

/-- `norm` from the source: typographic apostrophe to ASCII apostrophe,
transliterate, apostrophes to spaces, collapse whitespace, trim, lower. -/
def normL (l : List Char) : List Char :=
  if l = [] then []
  else lowerL (pyStripL (squeezeL (aposSubL (unidecodeL (typAposL l)))))

def norm (s : String) : String := ⟨normL s.data⟩

/-! ## Bib extractor (`extract_bib_from_text`) -/

/-- Case-insensitive match of an ASCII lowercase literal; returns the rest
of the input on success. -/
def matchLit : List Char → List Char → Option (List Char)
  | [], rest => some rest
  | _ :: _, [] => none
  | p :: ps, c :: cs => if asciiLower c = p then matchLit ps cs else none

/-- `[^0-9]{0,gap}?([0-9]{1,5})`: lazily skip at most `gap` non-digits up to
the first digit, then greedily capture at most five digits. -/
def grabDigits : Nat → List Char → Option (List Char)
  | _, [] => none
  | gap, c :: rest =>
    if c.isDigit then some ((c :: rest.takeWhile Char.isDigit).take 5)
    else if gap = 0 then none
    else grabDigits (gap - 1) rest

/-- One attempt of `numero\s*pettorale[^0-9]{0,100}?([0-9]{1,5})` anchored
at the head of the input. -/
def tryNumPett (cs : List Char) : Option (List Char) :=
  (matchLit "numero".data cs).bind fun r1 =>
    (matchLit "pettorale".data (r1.dropWhile pySpace)).bind fun r2 =>
      grabDigits 100 r2

/-- `re.search` of the first bib pattern: leftmost anchored success. -/
def searchNumPett : List Char → Option (List Char)
  | [] => none
  | c :: rest =>
    match tryNumPett (c :: rest) with
    | some d => some d
    | none => searchNumPett rest

/-- `\b` before a word character: start of input, or previous char non-word. -/
def boundaryOk : Option Char → Bool
  | none => true
  | some d => !isWordCh d

/-- One attempt of `pettorale[^0-9]{0,50}?([0-9]{1,5})` at the head. -/
def tryPett (cs : List Char) : Option (List Char) :=
  (matchLit "pettorale".data cs).bind fun r1 => grabDigits 50 r1

/-- `re.search` of `\bpettorale[^0-9]{0,50}?([0-9]{1,5})`, tracking the
previous character for the word boundary. -/
def searchPett (prev : Option Char) : List Char → Option (List Char)
  | [] => none
  | c :: rest =>
    match (if boundaryOk prev then tryPett (c :: rest) else none) with
    | some d => some d
    | none => searchPett (some c) rest

/-- One attempt of `n[°o]\s*pettorale[^0-9]{0,50}?([0-9]{1,5})` at the head. -/
def tryNoPett (cs : List Char) : Option (List Char) :=
  match cs with
  | [] => none
  | c :: rest =>
    if asciiLower c = 'n' then
      match rest with
      | [] => none
      | d :: rest2 =>
        if d = '°' ∨ asciiLower d = 'o' then
          (matchLit "pettorale".data (rest2.dropWhile pySpace)).bind fun r =>
            grabDigits 50 r
        else none
    else none

def searchNoPett (prev : Option Char) : List Char → Option (List Char)
  | [] => none
  | c :: rest =>
    match (if boundaryOk prev then tryNoPett (c :: rest) else none) with
    | some d => some d
    | none => searchNoPett (some c) rest

/-- `re.sub(r"\s+", " ", text).strip()` — the flattening both the bib
extractor and `is_all_caps_name` perform. -/
def flattenWS (s : String) : List Char := pyStripL (squeezeL s.data)

/-- `extract_bib_from_text`: three label patterns in order, first success
wins, `none` if all fail. -/
def extract_bib_from_text (text : String) : Option String :=
  let t_flat := flattenWS text
  match searchNumPett t_flat with
  | some d => some ⟨d⟩
  | none =>
    match searchPett none t_flat with
    | some d => some ⟨d⟩
    | none =>
      match searchNoPett none t_flat with
      | some d => some ⟨d⟩
      | none => none

/-! ## Name extractor -/

def LABELS_STOP : List String :=
  ["ATTESTATO DI PARTECIPAZIONE", "NOME", "NUMERO PETTORALE",
   "POSIZIONE ASSOLUTA", "POSIZIONE CATEGORIA", "GARA/TEMPO", "CERTIFICATES"]

/-- The character class `[A-ZÀ-Ÿ' \-]` of the source (`À` = U+00C0 through
`Ÿ` = U+0178, as a raw codepoint range). -/
def inNameClass (c : Char) : Bool :=
  ('A' ≤ c && c ≤ 'Z') || (192 ≤ c.toNat && c.toNat ≤ 376) ||
    c = '\'' || c = ' ' || c = '-'

def pyUpperL (l : List Char) : List Char := l.flatMap pyUpperChar

/-- The capitalisation ratio test `cap_ratio > 0.9` of `is_all_caps_name`,
as the exact integer inequality (see the header comment). -/
def capsRatioOk (raw : List Char) : Bool :=
  let totalAlpha := (raw.filter pyIsAlpha).length
  let upperAlpha := (raw.filter fun c => pyIsAlpha c && pyIsUpper c).length
  9 * max 1 totalAlpha < 10 * upperAlpha

/-- `is_all_caps_name` from the source. -/
def is_all_caps_name (line : String) : Bool :=
  let raw := pyStripL (squeezeL line.data)
  if raw.isEmpty then false
  else
    let raw_up := pyUpperL raw
    if LABELS_STOP.contains ⟨raw_up⟩ then false
    else if ((pySplit raw_up).filter fun w => 2 ≤ w.length).length < 2 then false
    else if !(!raw_up.isEmpty && raw_up.all inNameClass) then false
    else capsRatioOk raw

/-- `abs(len(s) - 18)`, the sort key of both name pickers. -/
def dist18 (s : String) : Nat :=
  if s.length ≤ 18 then 18 - s.length else s.length - 18

/-- Insert `x` before the first element with a strictly larger key, so an
element inserted later lands after the equal-key elements already
present. -/
def insertByKey (key : String → Nat) (x : String) : List String → List String
  | [] => [x]
  | y :: rest =>
    if key x < key y then x :: y :: rest else y :: insertByKey key x rest

/-- Stable insertion sort (left fold, inserting each element after its
equal-key predecessors), modelling Python's stable `sorted`/`list.sort`:
on ties the first-encountered candidate stays first. -/
def sortByKey (key : String → Nat) (l : List String) : List String :=
  l.foldl (fun acc x => insertByKey key x acc) []

/-- `extract_name_from_blocks`: collect stripped name-shaped lines of all
blocks, stably sort by distance of the length from 18, take the first. -/
def extract_name_from_blocks (blocks_texts : List String) : Option String :=
  let candidates :=
    blocks_texts.flatMap fun blk =>
      ((splitlines blk).filter is_all_caps_name).map pyStrip
  (sortByKey dist18 candidates).head?

/-- Case-insensitive `re.search(r"pettorale", ln)`: substring test on the
lower-cased line. -/
def hasPettorale (ln : String) : Bool :=
  isSubstr "pettorale".data (ln.data.map asciiLower)

/-- The laxer Stage-B candidate predicate (`is_caps_candidate`). -/
def is_caps_candidate (s : String) : Bool :=
  let s2 := pyStripL (squeezeL s.data)
  if s2.isEmpty then false
  else
    let su := pyUpperL s2
    if LABELS_STOP.contains ⟨su⟩ then false
    else if !(6 ≤ su.length && su.all inNameClass) then false
    else if ((pySplit su).filter fun w => 2 ≤ w.length).length < 2 then false
    else true

/-- The Stage-B candidate window of the source: the slice
`lines[max(0, i-5) : min(len(lines), i+6)]` around the first line
containing "pettorale" (`Nat` subtraction performs the `max 0` clamp). -/
def pettoraleWindow (lines : List String) : List String :=
  let idxs := (List.range lines.length).filter fun i => hasPettorale (lines.getD i "")
  match idxs with
  | [] => []
  | i :: _ => (lines.take (min lines.length (i + 6))).drop (i - 5)

/-- `extract_name_fallback_near_pettorale` from the source. -/
def extract_name_fallback_near_pettorale (text : String) : Option String :=
  let window_lines := pettoraleWindow (splitlines text)
  let caps := (window_lines.filter is_caps_candidate).map pyStrip
  (sortByKey dist18 caps).head?

/-! ## Last-resort Title-Case pair (`crea_indice`, inner regex) -/

/-- `[A-Z]` test. -/
def isUpperAZ (c : Char) : Bool := 'A' ≤ c && c ≤ 'Z'

/-- `[a-zà-ÿ]` test (raw codepoint range, `÷` included as in the source
class). -/
def isLowerClass (c : Char) : Bool :=
  ('a' ≤ c && c ≤ 'z') || (224 ≤ c.toNat && c.toNat ≤ 255)

/-- One anchored attempt of `\b([A-Z][a-zà-ÿ]+)\s+([A-Z][a-zà-ÿ]+)\b`
(the boundary before the match is checked by the caller).  Greedy runs
cannot backtrack into a successful match here, so maximal-run matching is
faithful. -/
def tryTitlePair (cs : List Char) : Option (String × String) :=
  match cs with
  | [] => none
  | c0 :: rest =>
    if isUpperAZ c0 then
      let run1 := rest.takeWhile isLowerClass
      let rest1 := rest.dropWhile isLowerClass
      if run1.isEmpty then none
      else
        let sp := rest1.takeWhile pySpace
        let rest2 := rest1.dropWhile pySpace
        if sp.isEmpty then none
        else
          match rest2 with
          | [] => none
          | c1 :: rest3 =>
            if isUpperAZ c1 then
              let run2 := rest3.takeWhile isLowerClass
              let rest4 := rest3.dropWhile isLowerClass
              if run2.isEmpty then none
              else
                match rest4 with
                | [] => some (⟨c0 :: run1⟩, ⟨c1 :: run2⟩)
                | d :: _ => if isWordCh d then none else some (⟨c0 :: run1⟩, ⟨c1 :: run2⟩)
            else none
    else none

def searchTitlePair (prev : Option Char) : List Char → Option (String × String)
  | [] => none
  | c :: rest =>
    match (if boundaryOk prev then tryTitlePair (c :: rest) else none) with
    | some r => some r
    | none => searchTitlePair (some c) rest

/-- The last-resort regex of the Index Builder applied to the raw page
text. -/
def titleCasePair (text : String) : Option (String × String) :=
  searchTitlePair none text.data

/-! ## Index builder (`crea_indice`) -/

/-- The per-page data the builder obtains from the document library:
`text` is `page.get_text()`, `blocks` the string entries of
`page.get_text("blocks")`. -/
structure PageData where
  text : String
  blocks : List String
  deriving Repr, DecidableEq

/-- The persisted index: insertion-ordered association lists, mirroring
Python dicts. -/
structure Indice where
  by_bib : List (String × Nat)
  by_name : List (String × List Nat)
  deriving Repr, DecidableEq

def emptyIndice : Indice := ⟨[], []⟩

/-- First-match association-list lookup (Python dict lookup). -/
def alookup {α : Type} (m : List (String × α)) (k : String) : Option α :=
  match m with
  | [] => none
  | kv :: rest => if kv.1 = k then some kv.2 else alookup rest k

/-- Python dict assignment `d[k] = v`: overwrite in place, else append. -/
def bibSet (m : List (String × Nat)) (k : String) (v : Nat) : List (String × Nat) :=
  match m with
  | [] => [(k, v)]
  | kv :: rest =>
    if kv.1 = k then (k, v) :: rest else kv :: bibSet rest k v

/-- `d.setdefault(k, []); if p not in d[k]: d[k].append(p)`. -/
def nameAppend (m : List (String × List Nat)) (k : String) (p : Nat) :
    List (String × List Nat) :=
  match m with
  | [] => [(k, [p])]
  | kv :: rest =>
    if kv.1 = k then (kv.1, if p ∈ kv.2 then kv.2 else kv.2 ++ [p]) :: rest
    else kv :: nameAppend rest k p

/-- The body of the page loop of `crea_indice` for one page.  (In the
source, `extract_name_from_blocks` never returns an empty string — its
candidates pass `is_all_caps_name`, which rejects whitespace-only lines —
so Python's falsy `or` chaining coincides with `Option` chaining.) -/
def processPage (out : Indice) (page_num : Nat) (pd : PageData) : Indice :=
  let bib := extract_bib_from_text pd.text
  let name_raw :=
    match extract_name_from_blocks pd.blocks with
    | some nm => some nm
    | none => extract_name_fallback_near_pettorale pd.text
  let out1 :=
    match bib with
    | some b => { out with by_bib := bibSet out.by_bib b page_num }
    | none => out
  let out2 :=
    match name_raw with
    | some nm => { out1 with by_name := nameAppend out1.by_name (norm nm) page_num }
    | none => out1
  match bib, name_raw with
  | none, none =>
    match titleCasePair pd.text with
    | some (w1, w2) =>
      { out2 with by_name := nameAppend out2.by_name (norm (w1 ++ " " ++ w2)) page_num }
    | none => out2
  | _, _ => out2

/-- The page loop.  A `none` page models `page.get_text()` raising: the
`try` of the source wraps the whole loop, so the exception aborts the
pass and the index accumulated so far is returned. -/
def creaLoop (pages : List (Option PageData)) (n : Nat) (out : Indice) : Indice :=
  match pages with
  | [] => out
  | none :: _ => out
  | some pd :: rest => creaLoop rest (n + 1) (processPage out n pd)

/-- `crea_indice`: `none` for the document models `fitz.open` raising
(empty index); page numbering starts at 1. -/
def crea_indice (doc : Option (List (Option PageData))) : Indice :=
  match doc with
  | none => emptyIndice
  | some pages => creaLoop pages 1 emptyIndice

/-! ## Query resolver (`cerca_attestato`, resolution logic) -/

/-- Python `str.isdigit` restricted to ASCII decimal digits (the form bib
queries take). -/
def pyIsDigit (s : String) : Bool :=
  !s.data.isEmpty && s.data.all Char.isDigit

inductive Risultato where
  | Single (p : Nat)
  | Multiple (ps : List Nat)
  | NotFound
  deriving Repr, DecidableEq

/-- Sorted-distinct insertion; folding it models Python `sorted(set(·))`. -/
def insertSorted (n : Nat) : List Nat → List Nat
  | [] => [n]
  | m :: rest =>
    if n < m then n :: m :: rest
    else if n = m then m :: rest
    else m :: insertSorted n rest

def sortDedup (l : List Nat) : List Nat := l.foldr insertSorted []

/-- The name-resolution part of `cerca_attestato`: exact normalized-key
lookup; if that yields nothing, the substring-union fallback, sorted and
de-duplicated. -/
def name_pages (by_name : List (String × List Nat)) (qn : String) : List Nat :=
  let pages := (alookup by_name qn).getD []
  if pages.isEmpty then
    sortDedup ((by_name.filter fun kv => isSubstr qn.data kv.1.data).flatMap
      fun kv => kv.2)
  else pages

/-- The resolution logic of `cerca_attestato` (the HTTP/PDF side is the
excluded boundary): digit query present in `by_bib` short-circuits,
otherwise name resolution with the `first_only` ambiguity switch. -/
def cerca (by_bib : List (String × Nat)) (by_name : List (String × List Nat))
    (query : String) (first_only : Bool) : Risultato :=
  if pyIsDigit query ∧ (alookup by_bib query).isSome then
    Risultato.Single ((alookup by_bib query).getD 0)
  else
    let qn := norm query
    let pages := name_pages by_name qn
    if pages.isEmpty then Risultato.NotFound
    else if 1 < pages.length ∧ first_only = false then Risultato.Multiple pages
    else Risultato.Single (pages.headD 0)

/-! ## Page materializer (`estrai_pagina`) -/

/-- `estrai_pagina`: a document is `none` when `fitz.open` raises, else the
list of its pages' contents; the result is the standalone single-page
document (the selected page's content), or `none` on failure. -/
def estrai_pagina (doc : Option (List String)) (page_number : Int) : Option String :=
  match doc with
  | none => none
  | some pages =>
    let idx := page_number - 1
    if idx < 0 ∨ (pages.length : Int) ≤ idx then none
    else pages.get? idx.toNat

/-! ## Spec-side variant for the Stage-B window (claim C2)

The specification describes the Stage-B window as "5 lines before and 6
lines after" the anchor line *inclusive*; this variant follows those words
(slice end `i + 7`), to be compared with the source's `i + 6`. -/

def pettoraleWindowSpec (lines : List String) : List String :=
  let idxs := (List.range lines.length).filter fun i => hasPettorale (lines.getD i "")
  match idxs with
  | [] => []
  | i :: _ => (lines.take (min lines.length (i + 7))).drop (i - 5)

def fallback_near_pettorale_spec (text : String) : Option String :=
  let window_lines := pettoraleWindowSpec (splitlines text)
  let caps := (window_lines.filter is_caps_candidate).map pyStrip
  (sortByKey dist18 caps).head?

/-! ## Derived views of the builder, used to state the claims -/

/-- The bib extracted at 0-based position `k` of the page list (`none` when
the page is out of range, failed, or carries no bib). -/
def extractAt (pages : List (Option PageData)) (k : Nat) : Option String :=
  (pages.getD k none).bind fun pd => extract_bib_from_text pd.text

/-- The last 0-based index of `pages` whose bib extraction yields `b`. -/
def lastBibIdx (b : String) : List (Option PageData) → Option Nat
  | [] => none
  | p :: rest =>
    match lastBibIdx b rest with
    | some j => some (j + 1)
    | none =>
      if (p.bind fun pd => extract_bib_from_text pd.text) = some b then some 0
      else none

/-- The normalized name key one page contributes to `by_name` (extraction
result, or the Title-Case last resort when neither bib nor name is found). -/
def pageNameKey (pd : PageData) : Option String :=
  match extract_name_from_blocks pd.blocks with
  | some nm => some (norm nm)
  | none =>
    match extract_name_fallback_near_pettorale pd.text with
    | some nm => some (norm nm)
    | none =>
      match extract_bib_from_text pd.text with
      | some _ => none
      | none => (titleCasePair pd.text).map fun w => norm (w.1 ++ " " ++ w.2)

/-- "No two adjacent whitespace characters", as a `Chain'` relation: the
shape invariant whitespace squeezing establishes. -/
def NoSS (a b : Char) : Bool := !(pySpace a && pySpace b)

/-! ## Concrete example documents used in the claim instances -/

/-- A document whose second page's text extraction raises (bibs "1" and
"3" on pages 1 and 3). -/
def exDocAbort : List (Option PageData) :=
  [some ⟨"pettorale 1", []⟩, none, some ⟨"pettorale 3", []⟩]

/-- Five pages; bib "7" appears on pages 2 and 5. -/
def exDocDupBib : List (Option PageData) :=
  [some ⟨"", []⟩, some ⟨"pettorale 7", []⟩, some ⟨"", []⟩, some ⟨"", []⟩,
   some ⟨"pettorale 7", []⟩]

/-- Seven pages; the name "MARIO ROSSI" appears on pages 3 and 7. -/
def exDocDupName : List (Option PageData) :=
  [some ⟨"", []⟩, some ⟨"", []⟩, some ⟨"", ["MARIO ROSSI\n"]⟩, some ⟨"", []⟩,
   some ⟨"", []⟩, some ⟨"", []⟩, some ⟨"", ["MARIO ROSSI\n"]⟩]

/-! # Lemmas -/

theorem char_toNat_ofNat (n : Nat) (h : n < 55296) : (Char.ofNat n).toNat = n := by
  unfold Char.ofNat
  rw [dif_pos (Or.inl h)]
  simp [Char.ofNatAux, Char.toNat, UInt32.toNat, BitVec.toNat_ofNatLt]

theorem char_le_iff (c d : Char) : c ≤ d ↔ c.toNat ≤ d.toNat := by
  rw [Char.le_def]
  exact ⟨fun h => by simpa [Char.toNat] using h, fun h => by simpa [Char.toNat] using h⟩

theorem char_eq_of_toNat (c d : Char) (h : c.toNat = d.toNat) : c = d := by
  have h1 := Char.ofNat_toNat c
  have h2 := Char.ofNat_toNat d
  rw [← h1, ← h2, h]

theorem unidecodeHigh_ascii (n : Nat) : ∀ d ∈ unidecodeHigh n, d.toNat < 128 := by
  intro d hd
  unfold unidecodeHigh at hd
  cases hfind : List.find? (fun r => decide (r.1 ≤ n ∧ n ≤ r.2.1)) unidecodeRanges with
  | none => rw [hfind] at hd; simp at hd
  | some r =>
    rw [hfind] at hd
    have hr : r ∈ unidecodeRanges := List.mem_of_find?_eq_some hfind
    have hall : ∀ r ∈ unidecodeRanges, ∀ d ∈ r.2.2, d.toNat < 128 := by decide
    exact hall r hr d hd

/-- Every character `unidecode` emits is ASCII. -/
theorem unidecodeChar_ascii (c : Char) : ∀ d ∈ unidecodeChar c, d.toNat < 128 := by
  intro d hd
  unfold unidecodeChar at hd
  split at hd
  · simp only [List.mem_singleton] at hd; subst hd; assumption
  · exact unidecodeHigh_ascii c.toNat d hd

/-- `unidecode` leaves ASCII unchanged. -/
theorem unidecodeChar_of_ascii (c : Char) (h : c.toNat < 128) :
    unidecodeChar c = [c] := by
  unfold unidecodeChar
  rw [if_pos h]

theorem map_id_on {α : Type} (f : α → α) :
    ∀ l : List α, (∀ c ∈ l, f c = c) → l.map f = l
  | [], _ => rfl
  | c :: t, h => by
    simp only [List.map_cons]
    rw [h c (by simp), map_id_on f t fun x hx => h x (by simp [hx])]

theorem flatMap_singleton_on (f : Char → List Char) :
    ∀ l : List Char, (∀ c ∈ l, f c = [c]) → l.flatMap f = l
  | [], _ => rfl
  | c :: t, h => by
    simp only [List.flatMap_cons]
    rw [h c (by simp), flatMap_singleton_on f t fun x hx => h x (by simp [hx])]
    rfl

/-! ### Squeezing lemmas -/

theorem squeezeAux_nil (b : Bool) : squeezeAux b [] = [] := rfl

theorem squeezeAux_cons_sp_t (x : Char) (t : List Char) (hx : pySpace x = true) :
    squeezeAux true (x :: t) = squeezeAux true t := by
  simp [squeezeAux, hx]

theorem squeezeAux_cons_sp_f (x : Char) (t : List Char) (hx : pySpace x = true) :
    squeezeAux false (x :: t) = ' ' :: squeezeAux true t := by
  simp [squeezeAux, hx]

theorem squeezeAux_cons_nsp (b : Bool) (x : Char) (t : List Char)
    (hx : pySpace x = false) : squeezeAux b (x :: t) = x :: squeezeAux false t := by
  simp [squeezeAux, hx]

/-- Every output character of squeezing is a space or a non-space input
character. -/
theorem squeezeAux_chars (l : List Char) :
    ∀ b, ∀ c ∈ squeezeAux b l, c = ' ' ∨ (c ∈ l ∧ pySpace c = false) := by
  induction l with
  | nil => intro b c hc; simp [squeezeAux_nil] at hc
  | cons x t ih =>
    intro b c hc
    by_cases hx : pySpace x = true
    · cases b with
      | true =>
        rw [squeezeAux_cons_sp_t x t hx] at hc
        rcases ih true c hc with h | ⟨h1, h2⟩
        · exact Or.inl h
        · exact Or.inr ⟨List.mem_cons_of_mem x h1, h2⟩
      | false =>
        rw [squeezeAux_cons_sp_f x t hx] at hc
        rcases List.mem_cons.mp hc with rfl | hc'
        · exact Or.inl rfl
        · rcases ih true c hc' with h | ⟨h1, h2⟩
          · exact Or.inl h
          · exact Or.inr ⟨List.mem_cons_of_mem x h1, h2⟩
    · have hx0 : pySpace x = false := by simpa using hx
      rw [squeezeAux_cons_nsp b x t hx0] at hc
      rcases List.mem_cons.mp hc with rfl | hc'
      · exact Or.inr ⟨by simp, hx0⟩
      · rcases ih false c hc' with h | ⟨h1, h2⟩
        · exact Or.inl h
        · exact Or.inr ⟨List.mem_cons_of_mem x h1, h2⟩

/-- After a space was just emitted (state `true`), the output never starts
with a space. -/
theorem squeezeAux_true_head (l : List Char) :
    ∀ c, (squeezeAux true l).head? = some c → pySpace c = false := by
  induction l with
  | nil => intro c hc; simp [squeezeAux_nil] at hc
  | cons x t ih =>
    intro c hc
    by_cases hx : pySpace x = true
    · rw [squeezeAux_cons_sp_t x t hx] at hc
      exact ih c hc
    · have hx0 : pySpace x = false := by simpa using hx
      rw [squeezeAux_cons_nsp true x t hx0] at hc
      simp only [List.head?_cons, Option.some.injEq] at hc
      subst hc
      exact hx0

/-- The squeezed output has no two adjacent whitespace characters. -/
theorem squeezeAux_chain (l : List Char) :
    ∀ b, List.Chain' (fun a c => NoSS a c = true) (squeezeAux b l) := by
  induction l with
  | nil => intro b; simp [squeezeAux_nil]
  | cons x t ih =>
    intro b
    by_cases hx : pySpace x = true
    · cases b with
      | true => rw [squeezeAux_cons_sp_t x t hx]; exact ih true
      | false =>
        rw [squeezeAux_cons_sp_f x t hx]
        refine List.chain'_cons'.mpr ⟨?_, ih true⟩
        intro y hy
        have hns : pySpace y = false := squeezeAux_true_head t y hy
        simp [NoSS, hns]
    · have hx0 : pySpace x = false := by simpa using hx
      rw [squeezeAux_cons_nsp b x t hx0]
      refine List.chain'_cons'.mpr ⟨?_, ih false⟩
      intro y hy
      simp [NoSS, hx0]

/-- On a list whose whitespace is already normalised (all whitespace is a
plain space, no two adjacent), squeezing is the identity; with state `true`
this additionally needs a non-space head. -/
theorem squeezeAux_id (l : List Char)
    (hsp : ∀ c ∈ l, pySpace c = true → c = ' ')
    (hch : List.Chain' (fun a c => NoSS a c = true) l) :
    squeezeAux false l = l ∧
      ((∀ c, l.head? = some c → pySpace c = false) → squeezeAux true l = l) := by
  induction l with
  | nil => exact ⟨rfl, fun _ => rfl⟩
  | cons x t ih =>
    obtain ⟨hhead, hch'⟩ := List.chain'_cons'.mp hch
    have hsp' : ∀ c ∈ t, pySpace c = true → c = ' ' :=
      fun c hc => hsp c (List.mem_cons_of_mem x hc)
    obtain ⟨ih1, ih2⟩ := ih hsp' hch'
    by_cases hx : pySpace x = true
    · have hx' : x = ' ' := hsp x (List.mem_cons_self x t) hx
      have ht : squeezeAux true t = t := by
        apply ih2
        intro c hc
        have hr := hhead c hc
        simp only [NoSS, Bool.not_eq_true', Bool.and_eq_false_iff] at hr
        rcases hr with h | h
        · rw [hx] at h; exact absurd h (by simp)
        · exact h
      constructor
      · rw [squeezeAux_cons_sp_f x t hx, ht, hx']
      · intro hh
        have := hh x rfl
        rw [hx] at this
        exact absurd this (by simp)
    · have hx0 : pySpace x = false := by simpa using hx
      constructor
      · rw [squeezeAux_cons_nsp false x t hx0, ih1]
      · intro _
        rw [squeezeAux_cons_nsp true x t hx0, ih1]

/-! ### Stripping lemmas -/

theorem pyStripL_subset (l : List Char) : ∀ c ∈ pyStripL l, c ∈ l := by
  intro c hc
  unfold pyStripL at hc
  rw [List.mem_reverse] at hc
  have h1 := (List.dropWhile_sublist (l := (l.dropWhile pySpace).reverse) pySpace).mem hc
  rw [List.mem_reverse] at h1
  exact (List.dropWhile_sublist pySpace).mem h1

/-- The right strip is a prefix of its input. -/
theorem rstripIsPrefixOf (m : List Char) :
    (m.reverse.dropWhile pySpace).reverse <+: m := by
  have h : m.reverse.dropWhile pySpace <:+ m.reverse := List.dropWhile_suffix pySpace
  have h2 : (m.reverse.dropWhile pySpace).reverse <+: m.reverse.reverse :=
    List.reverse_prefix.mpr h
  simpa using h2

theorem head?_dropWhile_false (p : Char → Bool) (l : List Char) :
    ∀ c, (l.dropWhile p).head? = some c → p c = false := by
  intro c hc
  have hne : l.dropWhile p ≠ [] := by
    intro h
    rw [h] at hc
    simp at hc
  rw [List.head?_eq_head hne] at hc
  injection hc with h
  subst h
  exact List.head_dropWhile_not p l hne

theorem pyStripL_head (l : List Char) :
    ∀ c, (pyStripL l).head? = some c → pySpace c = false := by
  intro c hc
  have hpre : pyStripL l <+: l.dropWhile pySpace := rstripIsPrefixOf _
  obtain ⟨t, ht⟩ := hpre
  have hhd : (l.dropWhile pySpace).head? = some c := by
    rw [← ht]
    cases hl : pyStripL l with
    | nil => rw [hl] at hc; simp at hc
    | cons a t' =>
      rw [hl] at hc
      simp only [List.head?_cons, Option.some.injEq] at hc
      subst hc
      simp
  exact head?_dropWhile_false pySpace l c hhd

theorem pyStripL_last (l : List Char) :
    ∀ c, (pyStripL l).getLast? = some c → pySpace c = false := by
  intro c hc
  unfold pyStripL at hc
  rw [List.getLast?_reverse] at hc
  exact head?_dropWhile_false pySpace _ c hc

theorem dropWhile_id_of_head (p : Char → Bool) (l : List Char)
    (h : ∀ c, l.head? = some c → p c = false) : l.dropWhile p = l := by
  cases l with
  | nil => rfl
  | cons x t =>
    have hx := h x rfl
    rw [List.dropWhile_cons, if_neg (by simp [hx])]

/-- Stripping a list with non-space ends is the identity. -/
theorem pyStripL_id (l : List Char)
    (h1 : ∀ c, l.head? = some c → pySpace c = false)
    (h2 : ∀ c, l.getLast? = some c → pySpace c = false) : pyStripL l = l := by
  unfold pyStripL
  rw [dropWhile_id_of_head pySpace l h1]
  rw [dropWhile_id_of_head pySpace l.reverse (by
    intro c hc
    rw [List.head?_reverse] at hc
    exact h2 c hc)]
  exact List.reverse_reverse l

theorem pyStripL_chain (l : List Char)
    (h : List.Chain' (fun a c => NoSS a c = true) l) :
    List.Chain' (fun a c => NoSS a c = true) (pyStripL l) := by
  have h1 : List.Chain' (fun a c => NoSS a c = true) (l.dropWhile pySpace) :=
    h.suffix (List.dropWhile_suffix pySpace)
  exact h1.prefix (rstripIsPrefixOf _)

/-! ### Lower-casing lemmas -/

theorem pySpace_toNat_le (d : Char) (h : pySpace d = true) : d.toNat ≤ 32 := by
  unfold pySpace at h
  simp only [Bool.or_eq_true, decide_eq_true_eq] at h
  rcases h with ((((h | h) | h) | h) | h) | h <;> subst h <;> decide

theorem asciiLower_toNat (c : Char) (h : 'A' ≤ c ∧ c ≤ 'Z') :
    (asciiLower c).toNat = c.toNat + 32 := by
  unfold asciiLower
  rw [if_pos h]
  have h90 : ('Z').toNat = 90 := rfl
  have hle : c.toNat ≤ 90 := by
    have := (char_le_iff c 'Z').mp h.2
    omega
  exact char_toNat_ofNat _ (by omega)

theorem asciiLower_space (c : Char) : pySpace (asciiLower c) = pySpace c := by
  by_cases h : 'A' ≤ c ∧ c ≤ 'Z'
  · have h1 : (asciiLower c).toNat = c.toNat + 32 := asciiLower_toNat c h
    have h65 : 65 ≤ c.toNat := by
      have := (char_le_iff 'A' c).mp h.1
      have hA : ('A').toNat = 65 := rfl
      omega
    have e1 : pySpace (asciiLower c) = false := by
      by_contra hc
      have := pySpace_toNat_le (asciiLower c) (by simpa using hc)
      omega
    have e2 : pySpace c = false := by
      by_contra hc
      have := pySpace_toNat_le c (by simpa using hc)
      omega
    rw [e1, e2]
  · rw [asciiLower, if_neg h]

theorem asciiLower_not_upper (c : Char) :
    ¬('A' ≤ asciiLower c ∧ asciiLower c ≤ 'Z') := by
  by_cases h : 'A' ≤ c ∧ c ≤ 'Z'
  · intro hcon
    have h1 : (asciiLower c).toNat = c.toNat + 32 := asciiLower_toNat c h
    have h65 : 65 ≤ c.toNat := by
      have := (char_le_iff 'A' c).mp h.1
      have hA : ('A').toNat = 65 := rfl
      omega
    have h90 : (asciiLower c).toNat ≤ 90 := by
      have := (char_le_iff (asciiLower c) 'Z').mp hcon.2
      have hZ : ('Z').toNat = 90 := rfl
      omega
    omega
  · rw [asciiLower, if_neg h]
    exact h

theorem asciiLower_ne_quote (c : Char) (h : c ≠ '\'') : asciiLower c ≠ '\'' := by
  by_cases hc : 'A' ≤ c ∧ c ≤ 'Z'
  · intro hcon
    have h1 : (asciiLower c).toNat = c.toNat + 32 := asciiLower_toNat c hc
    have h65 : 65 ≤ c.toNat := by
      have := (char_le_iff 'A' c).mp hc.1
      have hA : ('A').toNat = 65 := rfl
      omega
    have : (asciiLower c).toNat = 39 := by rw [hcon]; rfl
    omega
  · rw [asciiLower, if_neg hc]
    exact h

theorem asciiLower_ascii (c : Char) (h : c.toNat < 128) :
    (asciiLower c).toNat < 128 := by
  by_cases hc : 'A' ≤ c ∧ c ≤ 'Z'
  · have h1 : (asciiLower c).toNat = c.toNat + 32 := asciiLower_toNat c hc
    have h90 : c.toNat ≤ 90 := by
      have := (char_le_iff c 'Z').mp hc.2
      have hZ : ('Z').toNat = 90 := rfl
      omega
    omega
  · rw [asciiLower, if_neg hc]
    exact h

theorem asciiLower_eq_self (c : Char) (h : ¬('A' ≤ c ∧ c ≤ 'Z')) :
    asciiLower c = c := by
  rw [asciiLower, if_neg h]

/-! ### Shape of the normaliser's output -/

theorem unidecodeL_ascii (m : List Char) : ∀ d ∈ unidecodeL m, d.toNat < 128 := by
  intro d hd
  unfold unidecodeL at hd
  obtain ⟨c, _, hdc⟩ := List.mem_flatMap.mp hd
  exact unidecodeChar_ascii c d hdc

theorem aposSubL_chars (m : List Char) :
    ∀ d ∈ aposSubL m, (d = ' ' ∨ d ∈ m) ∧ d ≠ '\'' ∧ d ≠ '’' := by
  intro d hd
  unfold aposSubL at hd
  obtain ⟨c, hc, hdc⟩ := List.mem_map.mp hd
  by_cases h : (c = '\'' || c = '’') = true
  · rw [if_pos h] at hdc
    subst hdc
    exact ⟨Or.inl rfl, by decide, by decide⟩
  · rw [if_neg h] at hdc
    subst hdc
    simp only [Bool.or_eq_true, decide_eq_true_eq, not_or] at h
    exact ⟨Or.inr hc, h.1, h.2⟩

/-- The four shape properties of `normL`'s output: all characters are
ASCII, no apostrophes, whitespace is a single plain space with no two
adjacent, no uppercase `A`–`Z`, and the ends are non-space. -/
theorem normL_good (l : List Char) :
    (∀ c ∈ normL l,
      c.toNat < 128 ∧ c ≠ '\'' ∧ (pySpace c = true → c = ' ') ∧
        ¬('A' ≤ c ∧ c ≤ 'Z')) ∧
    List.Chain' (fun a c => NoSS a c = true) (normL l) ∧
    (∀ c, (normL l).head? = some c → pySpace c = false) ∧
    (∀ c, (normL l).getLast? = some c → pySpace c = false) := by
  by_cases hl : l = []
  · subst hl
    refine ⟨?_, ?_, ?_, ?_⟩ <;> simp [normL]
  · have hexp : normL l =
        lowerL (pyStripL (squeezeL (aposSubL (unidecodeL (typAposL l))))) := by
      rw [normL, if_neg hl]
    set X := aposSubL (unidecodeL (typAposL l)) with hX
    have hXprops : ∀ d ∈ X, d.toNat < 128 ∧ d ≠ '\'' ∧ d ≠ '’' := by
      intro d hd
      obtain ⟨hor, hq1, hq2⟩ := aposSubL_chars _ d hd
      refine ⟨?_, hq1, hq2⟩
      rcases hor with rfl | hmem
      · decide
      · exact unidecodeL_ascii _ d hmem
    set T := pyStripL (squeezeL X) with hT
    have hTmem : ∀ c ∈ T, c = ' ' ∨ (c ∈ X ∧ pySpace c = false) := by
      intro c hc
      exact squeezeAux_chars X false c (pyStripL_subset _ c hc)
    have hTgood : ∀ c ∈ T,
        c.toNat < 128 ∧ c ≠ '\'' ∧ (pySpace c = true → c = ' ') := by
      intro c hc
      rcases hTmem c hc with rfl | ⟨hmem, hns⟩
      · exact ⟨by decide, by decide, fun _ => rfl⟩
      · obtain ⟨ha, hq, _⟩ := hXprops c hmem
        exact ⟨ha, hq, fun hsp => absurd hsp (by simp [hns])⟩
    have hTchain : List.Chain' (fun a c => NoSS a c = true) T :=
      pyStripL_chain _ (squeezeAux_chain X false)
    have hThead : ∀ c, T.head? = some c → pySpace c = false := pyStripL_head _
    have hTlast : ∀ c, T.getLast? = some c → pySpace c = false := pyStripL_last _
    rw [hexp]
    refine ⟨?_, ?_, ?_, ?_⟩
    · intro c hc
      obtain ⟨d, hd, hdc⟩ := List.mem_map.mp hc
      subst hdc
      obtain ⟨ha, hq, hsp⟩ := hTgood d hd
      refine ⟨asciiLower_ascii d ha, asciiLower_ne_quote d hq, ?_,
        asciiLower_not_upper d⟩
      intro hspl
      rw [asciiLower_space d] at hspl
      rw [hsp hspl]
      have h1 : asciiLower ' ' = ' ' := by decide
      rw [← hsp hspl] at h1 ⊢
      rw [hsp hspl] at h1 ⊢
      exact h1
    · rw [lowerL]
      rw [List.chain'_map]
      apply hTchain.imp
      intro a b hab
      unfold NoSS at hab ⊢
      rw [asciiLower_space a, asciiLower_space b]
      exact hab
    · intro c hc
      rw [lowerL, List.head?_map] at hc
      cases hh : T.head? with
      | none => rw [hh] at hc; exact Option.noConfusion hc
      | some d =>
        rw [hh] at hc
        simp only [Option.map_some', Option.some.injEq] at hc
        subst hc
        rw [asciiLower_space d]
        exact hThead d hh
    · intro c hc
      rw [lowerL, List.getLast?_map] at hc
      cases hh : T.getLast? with
      | none => rw [hh] at hc; exact Option.noConfusion hc
      | some d =>
        rw [hh] at hc
        simp only [Option.map_some', Option.some.injEq] at hc
        subst hc
        rw [asciiLower_space d]
        exact hTlast d hh

/-- `normL` is the identity on lists with the output shape of `normL`. -/
theorem normL_fix (m : List Char)
    (hg : ∀ c ∈ m,
      c.toNat < 128 ∧ c ≠ '\'' ∧ (pySpace c = true → c = ' ') ∧
        ¬('A' ≤ c ∧ c ≤ 'Z'))
    (hch : List.Chain' (fun a c => NoSS a c = true) m)
    (hh : ∀ c, m.head? = some c → pySpace c = false)
    (hl : ∀ c, m.getLast? = some c → pySpace c = false) :
    normL m = m := by
  by_cases hm : m = []
  · subst hm; rfl
  · rw [normL, if_neg hm]
    have e1 : typAposL m = m := by
      apply map_id_on
      intro c hc
      have ha := (hg c hc).1
      rw [if_neg]
      intro hcon
      rw [hcon] at ha
      exact absurd ha (by decide)
    rw [e1]
    have e2 : unidecodeL m = m := by
      apply flatMap_singleton_on
      intro c hc
      exact unidecodeChar_of_ascii c (hg c hc).1
    rw [e2]
    have e3 : aposSubL m = m := by
      apply map_id_on
      intro c hc
      have ha := (hg c hc).1
      have hq := (hg c hc).2.1
      rw [if_neg]
      simp only [Bool.or_eq_true, decide_eq_true_eq, not_or]
      refine ⟨hq, ?_⟩
      intro hcon
      rw [hcon] at ha
      exact absurd ha (by decide)
    rw [e3]
    have e4 : squeezeL m = m := by
      unfold squeezeL
      exact (squeezeAux_id m (fun c hc => (hg c hc).2.2.1) hch).1
    rw [e4]
    have e5 : pyStripL m = m := pyStripL_id m hh hl
    rw [e5]
    apply map_id_on
    intro c hc
    exact asciiLower_eq_self c (hg c hc).2.2.2

theorem normL_idem (l : List Char) : normL (normL l) = normL l := by
  obtain ⟨hg, hch, hh, hlast⟩ := normL_good l
  exact normL_fix (normL l) hg hch hh hlast

/-! ### Association-list lemmas -/

theorem alookup_bibSet_self (m : List (String × Nat)) (k : String) (v : Nat) :
    alookup (bibSet m k v) k = some v := by
  induction m with
  | nil => simp [bibSet, alookup]
  | cons kv tl ih =>
    by_cases h : kv.1 = k
    · simp [bibSet, alookup, h]
    · simp [bibSet, alookup, h, ih]

theorem alookup_bibSet_ne (m : List (String × Nat)) (k k' : String) (v : Nat)
    (h : k ≠ k') : alookup (bibSet m k v) k' = alookup m k' := by
  induction m with
  | nil => simp [bibSet, alookup, h]
  | cons kv tl ih =>
    by_cases h0 : kv.1 = k
    · simp [bibSet, alookup, h0, h]
    · simp [bibSet, alookup, h0, ih]

/-! ### Field views of `processPage` -/

theorem processPage_by_bib (out : Indice) (n : Nat) (pd : PageData) :
    (processPage out n pd).by_bib =
      match extract_bib_from_text pd.text with
      | some b => bibSet out.by_bib b n
      | none => out.by_bib := by
  unfold processPage
  cases hb : extract_bib_from_text pd.text <;>
    cases hn : extract_name_from_blocks pd.blocks <;>
      cases hf : extract_name_fallback_near_pettorale pd.text <;>
        cases ht : titleCasePair pd.text <;>
          simp [hb, hn, hf, ht]

theorem processPage_by_name (out : Indice) (n : Nat) (pd : PageData) :
    (processPage out n pd).by_name =
      match pageNameKey pd with
      | some k => nameAppend out.by_name k n
      | none => out.by_name := by
  unfold processPage pageNameKey
  cases hb : extract_bib_from_text pd.text <;>
    cases hn : extract_name_from_blocks pd.blocks <;>
      cases hf : extract_name_fallback_near_pettorale pd.text <;>
        cases ht : titleCasePair pd.text <;>
          simp [hb, hn, hf, ht]

/-! ### The bib mapping built by the page loop -/

theorem extractAt_nil (k : Nat) : extractAt [] k = none := by
  simp [extractAt]

theorem extractAt_zero (p : Option PageData) (rest : List (Option PageData)) :
    extractAt (p :: rest) 0 = p.bind fun pd => extract_bib_from_text pd.text := rfl

theorem extractAt_succ (p : Option PageData) (rest : List (Option PageData))
    (k : Nat) : extractAt (p :: rest) (k + 1) = extractAt rest k := rfl

theorem extractAt_of_ge_length (pages : List (Option PageData)) (k : Nat)
    (h : pages.length ≤ k) : extractAt pages k = none := by
  unfold extractAt
  rw [List.getD_eq_default]
  · rfl
  · exact h

theorem lt_length_of_extractAt (pages : List (Option PageData)) (k : Nat)
    (b : String) (h : extractAt pages k = some b) : k < pages.length := by
  by_contra hk
  rw [extractAt_of_ge_length pages k (by omega)] at h
  exact Option.noConfusion h

theorem lastBibIdx_cons (b : String) (p : Option PageData)
    (rest : List (Option PageData)) :
    lastBibIdx b (p :: rest) =
      match lastBibIdx b rest with
      | some j => some (j + 1)
      | none =>
        if (p.bind fun pd => extract_bib_from_text pd.text) = some b then some 0
        else none := rfl

/-- If no page yields `b`, `lastBibIdx` finds nothing, and conversely. -/
theorem lastBibIdx_none_iff (b : String) (pages : List (Option PageData)) :
    lastBibIdx b pages = none ↔ ∀ k, extractAt pages k ≠ some b := by
  induction pages with
  | nil =>
    constructor
    · intro _ k
      rw [extractAt_nil]
      exact Option.noConfusion
    · intro _
      rfl
  | cons p rest ih =>
    constructor
    · intro h k
      rw [lastBibIdx_cons] at h
      cases hr : lastBibIdx b rest with
      | some j => rw [hr] at h; exact Option.noConfusion h
      | none =>
        rw [hr] at h
        by_cases hc : (p.bind fun pd => extract_bib_from_text pd.text) = some b
        · rw [if_pos hc] at h; exact Option.noConfusion h
        · cases k with
          | zero => rw [extractAt_zero]; exact hc
          | succ k' => rw [extractAt_succ]; exact ih.mp hr k'
    · intro h
      rw [lastBibIdx_cons]
      cases hr : lastBibIdx b rest with
      | some j =>
        exfalso
        have hall : ∀ k, extractAt rest k ≠ some b := by
          intro k
          have hk := h (k + 1)
          rwa [extractAt_succ] at hk
        rw [ih.mpr hall] at hr
        exact Option.noConfusion hr
      | none =>
        have h0 := h 0
        rw [extractAt_zero] at h0
        show (if (p.bind fun pd => extract_bib_from_text pd.text) = some b
          then some 0 else none) = none
        rw [if_neg h0]

/-- `lastBibIdx` finds the last page index whose bib extraction yields
`b`. -/
theorem lastBibIdx_spec (b : String) (pages : List (Option PageData)) (j : Nat)
    (h : lastBibIdx b pages = some j) :
    extractAt pages j = some b ∧ ∀ k, j < k → extractAt pages k ≠ some b := by
  induction pages generalizing j with
  | nil => exact Option.noConfusion h
  | cons p rest ih =>
    rw [lastBibIdx_cons] at h
    cases hr : lastBibIdx b rest with
    | some j' =>
      rw [hr] at h
      injection h with h
      subst h
      obtain ⟨h1, h2⟩ := ih j' hr
      refine ⟨by rw [extractAt_succ]; exact h1, ?_⟩
      intro k hk
      cases k with
      | zero => omega
      | succ k' =>
        rw [extractAt_succ]
        exact h2 k' (by omega)
    | none =>
      rw [hr] at h
      by_cases hc : (p.bind fun pd => extract_bib_from_text pd.text) = some b
      · rw [if_pos hc] at h
        injection h with h
        subst h
        refine ⟨by rw [extractAt_zero]; exact hc, ?_⟩
        intro k hk
        cases k with
        | zero => omega
        | succ k' =>
          rw [extractAt_succ]
          exact (lastBibIdx_none_iff b rest).mp hr k'
      · rw [if_neg hc] at h
        exact Option.noConfusion h

/-- What the page loop stores under a bib key: the last page extracting it
(when all pages succeed). -/
theorem creaLoop_by_bib (pages : List (Option PageData)) :
    ∀ (n : Nat) (acc : Indice) (b : String),
      (∀ p ∈ pages, p.isSome = true) →
      alookup (creaLoop pages n acc).by_bib b =
        match lastBibIdx b pages with
        | some j => some (n + j)
        | none => alookup acc.by_bib b := by
  induction pages with
  | nil => intro n acc b _; rfl
  | cons p rest ih =>
    intro n acc b hall
    have hp : p.isSome = true := hall p (by simp)
    obtain ⟨pd, rfl⟩ := Option.isSome_iff_exists.mp hp
    have hrest : ∀ q ∈ rest, q.isSome = true :=
      fun q hq => hall q (List.mem_cons_of_mem _ hq)
    show alookup (creaLoop rest (n + 1) (processPage acc n pd)).by_bib b = _
    rw [ih (n + 1) (processPage acc n pd) b hrest]
    rw [lastBibIdx_cons]
    cases hr : lastBibIdx b rest with
    | some j =>
      show some (n + 1 + j) = some (n + (j + 1))
      exact congrArg some (by omega)
    | none =>
      have hbb := processPage_by_bib acc n pd
      cases hx : extract_bib_from_text pd.text with
      | some b' =>
        rw [hx] at hbb
        by_cases hb' : b' = b
        · have hcond : ((some pd).bind fun pd => extract_bib_from_text pd.text)
              = some b := by simp [hx, hb']
          rw [if_pos hcond]
          show alookup (processPage acc n pd).by_bib b = some (n + 0)
          rw [hbb]
          show alookup (bibSet acc.by_bib b' n) b = some (n + 0)
          rw [hb', alookup_bibSet_self]
          rfl
        · have hcond : ¬((some pd).bind fun pd => extract_bib_from_text pd.text)
              = some b := by
            simp only [Option.some_bind, hx]
            intro hcon
            exact hb' (Option.some.inj hcon)
          rw [if_neg hcond]
          show alookup (processPage acc n pd).by_bib b = alookup acc.by_bib b
          rw [hbb]
          show alookup (bibSet acc.by_bib b' n) b = alookup acc.by_bib b
          exact alookup_bibSet_ne _ _ _ _ hb'
      | none =>
        have hcond : ¬((some pd).bind fun pd => extract_bib_from_text pd.text)
            = some b := by
          simp [Option.some_bind, hx]
        rw [if_neg hcond]
        show alookup (processPage acc n pd).by_bib b = alookup acc.by_bib b
        rw [hbb, hx]

/-! ### The name mapping built by the page loop -/

theorem norm_norm (s : String) : norm (norm s) = norm s := by
  show (⟨normL (normL s.data)⟩ : String) = ⟨normL s.data⟩
  exact congrArg String.mk (normL_idem s.data)

/-- Every key a page contributes is the image of `norm`. -/
theorem pageNameKey_is_norm (pd : PageData) (k : String)
    (h : pageNameKey pd = some k) : ∃ x, k = norm x := by
  unfold pageNameKey at h
  cases hn : extract_name_from_blocks pd.blocks with
  | some nm =>
    rw [hn] at h
    exact ⟨nm, (Option.some.inj h).symm⟩
  | none =>
    rw [hn] at h
    cases hf : extract_name_fallback_near_pettorale pd.text with
    | some nm =>
      rw [hf] at h
      exact ⟨nm, (Option.some.inj h).symm⟩
    | none =>
      rw [hf] at h
      cases hb : extract_bib_from_text pd.text with
      | some b => rw [hb] at h; exact Option.noConfusion h
      | none =>
        rw [hb] at h
        cases ht : titleCasePair pd.text with
        | none => rw [ht] at h; exact Option.noConfusion h
        | some w =>
          rw [ht] at h
          simp only [Option.map_some', Option.some.injEq] at h
          exact ⟨w.1 ++ " " ++ w.2, h.symm⟩

theorem nameAppend_keys (m : List (String × List Nat)) (k : String) (p : Nat) :
    ∀ kv ∈ nameAppend m k p, kv.1 = k ∨ ∃ kv' ∈ m, kv.1 = kv'.1 := by
  induction m with
  | nil =>
    intro kv hkv
    simp only [nameAppend, List.mem_singleton] at hkv
    rw [hkv]
    exact Or.inl rfl
  | cons hd tl ih =>
    intro kv hkv
    by_cases h : hd.1 = k
    · rw [nameAppend, if_pos h] at hkv
      rcases List.mem_cons.mp hkv with rfl | hkv'
      · exact Or.inl h
      · exact Or.inr ⟨kv, List.mem_cons_of_mem hd hkv', rfl⟩
    · rw [nameAppend, if_neg h] at hkv
      rcases List.mem_cons.mp hkv with rfl | hkv'
      · exact Or.inr ⟨kv, List.mem_cons_self kv tl, rfl⟩
      · rcases ih kv hkv' with h1 | ⟨kv', hkv'', h2⟩
        · exact Or.inl h1
        · exact Or.inr ⟨kv', List.mem_cons_of_mem hd hkv'', h2⟩

/-- The per-key page lists stay strictly increasing and bounded by the
running page counter. -/
theorem nameAppend_inv (m : List (String × List Nat)) (k : String) (n : Nat)
    (h : ∀ kv ∈ m, List.Chain' (· < ·) kv.2 ∧ ∀ x ∈ kv.2, x < n) :
    ∀ kv ∈ nameAppend m k n,
      List.Chain' (· < ·) kv.2 ∧ ∀ x ∈ kv.2, x < n + 1 := by
  induction m with
  | nil =>
    intro kv hkv
    simp only [nameAppend, List.mem_singleton] at hkv
    rw [hkv]
    exact ⟨by simp, by intro x hx; simp at hx; omega⟩
  | cons hd tl ih =>
    intro kv hkv
    by_cases h0 : hd.1 = k
    · rw [nameAppend, if_pos h0] at hkv
      rcases List.mem_cons.mp hkv with rfl | hkv'
      · obtain ⟨hc, hb⟩ := h hd (List.mem_cons_self hd tl)
        by_cases hmem : n ∈ hd.2
        · rw [if_pos hmem]
          exact ⟨hc, fun x hx => by have := hb x hx; omega⟩
        · rw [if_neg hmem]
          constructor
          · rw [List.chain'_append]
            refine ⟨hc, by simp, ?_⟩
            intro x hx y hy
            simp only [List.head?_cons, Option.mem_def, Option.some.injEq] at hy
            subst hy
            have hxm : x ∈ hd.2 := by
              rcases List.getLast?_eq_some_iff.mp hx with ⟨ys, hys⟩
              rw [hys]
              simp
            exact hb x hxm
          · intro x hx
            rcases List.mem_append.mp hx with hx' | hx'
            · have := hb x hx'; omega
            · simp only [List.mem_singleton] at hx'; omega
      · obtain ⟨hc, hb⟩ := h kv (List.mem_cons_of_mem hd hkv')
        exact ⟨hc, fun x hx => by have := hb x hx; omega⟩
    · rw [nameAppend, if_neg h0] at hkv
      rcases List.mem_cons.mp hkv with rfl | hkv'
      · obtain ⟨hc, hb⟩ := h kv (List.mem_cons_self kv tl)
        exact ⟨hc, fun x hx => by have := hb x hx; omega⟩
      · exact ih (fun kv' hkv'' => h kv' (List.mem_cons_of_mem hd hkv'')) kv hkv'

/-- Both builder invariants carried through the page loop: every `by_name`
key is a `norm`-image fixpoint candidate, and every page list is strictly
increasing (bounded by the counter). -/
theorem creaLoop_name_inv (pages : List (Option PageData)) :
    ∀ (n : Nat) (acc : Indice),
      (∀ kv ∈ acc.by_name,
        (norm kv.1 = kv.1 ∧ List.Chain' (· < ·) kv.2 ∧ ∀ x ∈ kv.2, x < n)) →
      ∀ kv ∈ (creaLoop pages n acc).by_name,
        norm kv.1 = kv.1 ∧ List.Chain' (· < ·) kv.2 := by
  induction pages with
  | nil =>
    intro n acc h kv hkv
    exact ⟨(h kv hkv).1, (h kv hkv).2.1⟩
  | cons p rest ih =>
    intro n acc h kv hkv
    cases p with
    | none => exact ⟨(h kv hkv).1, (h kv hkv).2.1⟩
    | some pd =>
      have hstep : ∀ kv' ∈ (processPage acc n pd).by_name,
          (norm kv'.1 = kv'.1 ∧ List.Chain' (· < ·) kv'.2 ∧
            ∀ x ∈ kv'.2, x < n + 1) := by
        intro kv' hkv'
        have hview := processPage_by_name acc n pd
        cases hk : pageNameKey pd with
        | none =>
          rw [hk] at hview
          rw [hview] at hkv'
          obtain ⟨h1, h2, h3⟩ := h kv' hkv'
          exact ⟨h1, h2, fun x hx => by have := h3 x hx; omega⟩
        | some key =>
          rw [hk] at hview
          rw [hview] at hkv'
          have hkey : ∀ kv0 ∈ acc.by_name,
              List.Chain' (· < ·) kv0.2 ∧ ∀ x ∈ kv0.2, x < n :=
            fun kv0 hkv0 => (h kv0 hkv0).2
          obtain ⟨hc, hb⟩ := nameAppend_inv acc.by_name key n hkey kv' hkv'
          refine ⟨?_, hc, hb⟩
          rcases nameAppend_keys acc.by_name key n kv' hkv' with h1 | ⟨kv'', hkv'', h2⟩
          · rw [h1]
            obtain ⟨x, hx⟩ := pageNameKey_is_norm pd key hk
            rw [hx]
            exact norm_norm x
          · rw [h2]
            exact (h kv'' hkv'').1
      exact ih (n + 1) (processPage acc n pd) hstep kv hkv

/-- Invariants of the built index: normalized keys, strictly increasing
page lists. -/
theorem crea_indice_by_name_inv (doc : Option (List (Option PageData))) :
    ∀ kv ∈ (crea_indice doc).by_name,
      norm kv.1 = kv.1 ∧ List.Chain' (· < ·) kv.2 := by
  cases doc with
  | none => intro kv hkv; simp [crea_indice, emptyIndice] at hkv
  | some pages =>
    intro kv hkv
    exact creaLoop_name_inv pages 1 emptyIndice
      (by intro kv' hkv'; simp [emptyIndice] at hkv') kv hkv

/-! ### Sorting and de-duplication lemmas -/

theorem head?_insertSorted (n : Nat) (l : List Nat) :
    ∀ y, (insertSorted n l).head? = some y → y = n ∨ l.head? = some y := by
  intro y hy
  cases l with
  | nil =>
    simp only [insertSorted, List.head?_cons, Option.some.injEq] at hy
    exact Or.inl hy.symm
  | cons m rest =>
    rw [insertSorted] at hy
    by_cases h1 : n < m
    · rw [if_pos h1] at hy
      simp only [List.head?_cons, Option.some.injEq] at hy
      exact Or.inl hy.symm
    · rw [if_neg h1] at hy
      by_cases h2 : n = m
      · rw [if_pos h2] at hy
        exact Or.inr hy
      · rw [if_neg h2] at hy
        exact Or.inr hy

theorem chain'_insertSorted (n : Nat) (l : List Nat)
    (h : List.Chain' (· < ·) l) :
    List.Chain' (· < ·) (insertSorted n l) := by
  induction l with
  | nil => simp [insertSorted]
  | cons m rest ih =>
    obtain ⟨hhead, htail⟩ := List.chain'_cons'.mp h
    rw [insertSorted]
    by_cases h1 : n < m
    · rw [if_pos h1]
      exact List.chain'_cons'.mpr ⟨by simp [h1],
        List.chain'_cons'.mpr ⟨hhead, htail⟩⟩
    · rw [if_neg h1]
      by_cases h2 : n = m
      · rw [if_pos h2]
        exact h
      · rw [if_neg h2]
        refine List.chain'_cons'.mpr ⟨?_, ih htail⟩
        intro y hy
        rcases head?_insertSorted n rest y hy with rfl | hy'
        · omega
        · exact hhead y hy'

theorem mem_insertSorted (a n : Nat) (l : List Nat) :
    a ∈ insertSorted n l ↔ a = n ∨ a ∈ l := by
  induction l with
  | nil => simp [insertSorted]
  | cons m rest ih =>
    rw [insertSorted]
    by_cases h1 : n < m
    · rw [if_pos h1]
      simp [List.mem_cons, or_comm, or_assoc, or_left_comm]
    · rw [if_neg h1]
      by_cases h2 : n = m
      · rw [if_pos h2]
        subst h2
        simp only [List.mem_cons]
        tauto
      · rw [if_neg h2]
        simp only [List.mem_cons, ih]
        tauto

theorem chain'_sortDedup (l : List Nat) :
    List.Chain' (· < ·) (sortDedup l) := by
  induction l with
  | nil => simp [sortDedup]
  | cons x t ih => exact chain'_insertSorted x (sortDedup t) ih

theorem mem_sortDedup (a : Nat) (l : List Nat) : a ∈ sortDedup l ↔ a ∈ l := by
  induction l with
  | nil => simp [sortDedup]
  | cons x t ih =>
    show a ∈ insertSorted x (sortDedup t) ↔ _
    rw [mem_insertSorted, ih]
    simp [List.mem_cons]

theorem nodup_of_chain'_lt (l : List Nat) (h : List.Chain' (· < ·) l) :
    l.Nodup := by
  have hp : List.Pairwise (· < ·) l := List.chain'_iff_pairwise.mp h
  exact hp.imp Nat.ne_of_lt

theorem headD_le_of_chain' (l : List Nat) (h : List.Chain' (· < ·) l) :
    ∀ p ∈ l, l.headD 0 ≤ p := by
  cases l with
  | nil => intro p hp; simp at hp
  | cons a t =>
    intro p hp
    have hpw : List.Pairwise (· < ·) (a :: t) := List.chain'_iff_pairwise.mp h
    rcases List.mem_cons.mp hp with rfl | hp'
    · simp
    · have := (List.pairwise_cons.mp hpw).1 p hp'
      simp
      omega

/-! ### Stable-sort membership (name pickers) -/

theorem mem_insertByKey (key : String → Nat) (x a : String) (l : List String) :
    a ∈ insertByKey key x l ↔ a = x ∨ a ∈ l := by
  induction l with
  | nil => simp [insertByKey]
  | cons y rest ih =>
    rw [insertByKey]
    by_cases h : key x < key y
    · rw [if_pos h]
      simp [List.mem_cons]
    · rw [if_neg h]
      simp only [List.mem_cons, ih]
      tauto

theorem mem_sortByKey_aux (key : String → Nat) (l : List String) :
    ∀ (acc : List String) (a : String),
      a ∈ l.foldl (fun acc x => insertByKey key x acc) acc ↔ a ∈ acc ∨ a ∈ l := by
  induction l with
  | nil => intro acc a; simp
  | cons x t ih =>
    intro acc a
    show a ∈ t.foldl (fun acc x => insertByKey key x acc) (insertByKey key x acc) ↔ _
    rw [ih (insertByKey key x acc) a, mem_insertByKey]
    simp only [List.mem_cons]
    tauto

theorem mem_sortByKey (key : String → Nat) (l : List String) (a : String) :
    a ∈ sortByKey key l ↔ a ∈ l := by
  unfold sortByKey
  rw [mem_sortByKey_aux key l [] a]
  simp

/-! ### Remaining small helpers -/

theorem mem_of_head? {α : Type} (l : List α) (x : α) (h : l.head? = some x) :
    x ∈ l := by
  cases l with
  | nil => exact Option.noConfusion h
  | cons a t =>
    injection h with h
    exact List.mem_cons.mpr (Or.inl h.symm)

theorem alookup_mem {α : Type} (m : List (String × α)) (k : String) (v : α)
    (h : alookup m k = some v) : ∃ kv ∈ m, kv.2 = v := by
  induction m with
  | nil => exact Option.noConfusion h
  | cons kv tl ih =>
    rw [alookup] at h
    by_cases h0 : kv.1 = k
    · rw [if_pos h0] at h
      exact ⟨kv, List.mem_cons_self kv tl, Option.some.inj h⟩
    · rw [if_neg h0] at h
      obtain ⟨kv', hm, hv⟩ := ih h
      exact ⟨kv', List.mem_cons_of_mem kv hm, hv⟩

/-- The page loop never looks past the first failing page. -/
theorem creaLoop_takeWhile (pages : List (Option PageData)) :
    ∀ (n : Nat) (acc : Indice),
      creaLoop pages n acc = creaLoop (pages.takeWhile Option.isSome) n acc := by
  induction pages with
  | nil => intro n acc; rfl
  | cons p rest ih =>
    intro n acc
    cases p with
    | none => rfl
    | some pd =>
      show creaLoop rest (n + 1) (processPage acc n pd) =
        creaLoop ((some pd :: rest).takeWhile Option.isSome) n acc
      rw [List.takeWhile_cons]
      rw [if_pos (by rfl)]
      show creaLoop rest (n + 1) (processPage acc n pd) =
        creaLoop (rest.takeWhile Option.isSome) (n + 1) (processPage acc n pd)
      exact ih (n + 1) (processPage acc n pd)

/-! # Claim theorems -/

/-- C1 (counterexample): in `exDocAbort`, page 3 extracts bib "3" and page
1 extracts bib "1", but because page 2's text extraction raises, the built
index contains page 1's bib and not page 3's — pages after a faulting page
do not contribute, contradicting the claim that only the faulting page is
skipped. -/
theorem crea_indice_abort_cex :
    extract_bib_from_text "pettorale 3" = some "3" ∧
    alookup (crea_indice (some exDocAbort)).by_bib "1" = some 1 ∧
    alookup (crea_indice (some exDocAbort)).by_bib "3" = none :=
  ⟨rfl, rfl, rfl⟩

/-- C1 (amended): a text-extraction exception on page k is logged and
aborts the pass: the builder returns the index accumulated from pages 1
through k-1, so pages k through page_count contribute nothing — the built
index equals the index of the longest all-successful prefix of the
document. -/
theorem crea_indice_stops_at_first_failing_page (pages : List (Option PageData)) :
    crea_indice (some pages) = crea_indice (some (pages.takeWhile Option.isSome)) := by
  show creaLoop pages 1 emptyIndice = creaLoop (pages.takeWhile Option.isSome) 1 emptyIndice
  exact creaLoop_takeWhile pages 1 emptyIndice

/-- C2 (counterexample): with "pettorale" on line 0 and the only candidate
line "MARIO ROSSI" on line 6 — inside the claimed window, which includes
6 lines after the anchor — the fallback returns nothing, while the
spec-described window (slice end `i + 7`) would return the candidate: the
code's window ends at 5 lines after the anchor. -/
theorem fallback_window_cex :
    extract_name_fallback_near_pettorale "pettorale\nx\nx\nx\nx\nx\nMARIO ROSSI" = none ∧
    fallback_near_pettorale_spec "pettorale\nx\nx\nx\nx\nx\nMARIO ROSSI" =
      some "MARIO ROSSI" ∧
    is_caps_candidate "MARIO ROSSI" = true ∧
    splitlines "pettorale\nx\nx\nx\nx\nx\nMARIO ROSSI" =
      ["pettorale", "x", "x", "x", "x", "x", "MARIO ROSSI"] ∧
    hasPettorale "pettorale" = true :=
  ⟨rfl, rfl, rfl, rfl, rfl⟩

/-- C2 (amended): every name the Stage-B fallback returns is the strip of
a line inside the slice `lines[max(0, i-5) : min(len(lines), i+6)]` around
the first line `i` containing "pettorale" — up to 5 lines before and up to
5 lines after the anchor line. -/
theorem fallback_window_amended (text : String) (nm : String)
    (h : extract_name_fallback_near_pettorale text = some nm) :
    ∃ i ln,
      ((List.range (splitlines text).length).filter
          (fun k => hasPettorale ((splitlines text).getD k ""))).head? = some i ∧
      ln ∈ ((splitlines text).take (min (splitlines text).length (i + 6))).drop (i - 5) ∧
      is_caps_candidate ln = true ∧ nm = pyStrip ln := by
  simp only [extract_name_fallback_near_pettorale, pettoraleWindow] at h
  cases hidx : (List.range (splitlines text).length).filter
      (fun k => hasPettorale ((splitlines text).getD k "")) with
  | nil =>
    rw [hidx] at h
    exact Option.noConfusion h
  | cons i rest =>
    rw [hidx] at h
    have hmem := mem_of_head? _ _ h
    rw [mem_sortByKey] at hmem
    obtain ⟨ln, hln, hmap⟩ := List.mem_map.mp hmem
    obtain ⟨hwin, hcand⟩ := List.mem_filter.mp hln
    exact ⟨i, ln, rfl, hwin, hcand, hmap.symm⟩

/-- C2 witness: the amended window property at a concrete text. -/
theorem fallback_window_amended_witness :
    ∃ i ln,
      ((List.range (splitlines "NOME\npettorale\nMARIO ROSSI").length).filter
          (fun k => hasPettorale
            ((splitlines "NOME\npettorale\nMARIO ROSSI").getD k ""))).head? = some i ∧
      ln ∈ ((splitlines "NOME\npettorale\nMARIO ROSSI").take
          (min (splitlines "NOME\npettorale\nMARIO ROSSI").length (i + 6))).drop (i - 5) ∧
      is_caps_candidate ln = true ∧ "MARIO ROSSI" = pyStrip ln :=
  fallback_window_amended "NOME\npettorale\nMARIO ROSSI" "MARIO ROSSI" (by rfl)

/-- C3: when every page of the document succeeds and `j` is the highest
0-based position whose bib extraction yields `b` (witnessed on at least
two pages `i < j`), the built index maps `b` to page `j + 1` — the later
assignment overwrites the earlier one. -/
theorem crea_indice_last_bib_wins (pages : List (Option PageData)) (b : String)
    (i j : Nat)
    (hall : ∀ p ∈ pages, p.isSome = true)
    (hij : i < j)
    (hi : extractAt pages i = some b)
    (hj : extractAt pages j = some b)
    (hafter : ∀ k, k < pages.length → j < k → extractAt pages k ≠ some b) :
    alookup (crea_indice (some pages)).by_bib b = some (j + 1) := by
  have hlast : lastBibIdx b pages = some j := by
    cases hl : lastBibIdx b pages with
    | none => exact absurd hj ((lastBibIdx_none_iff b pages).mp hl j)
    | some j' =>
      obtain ⟨h1, h2⟩ := lastBibIdx_spec b pages j' hl
      have hjlen : j' < pages.length := lt_length_of_extractAt pages j' b h1
      have hle : j ≤ j' := by
        by_contra hgt
        exact h2 j (by omega) hj
      have hge : j' ≤ j := by
        by_contra hgt
        exact hafter j' hjlen (by omega) h1
      have hjj : j' = j := by omega
      rw [hjj]
  show alookup (creaLoop pages 1 emptyIndice).by_bib b = some (j + 1)
  rw [creaLoop_by_bib pages 1 emptyIndice b hall, hlast]
  show some (1 + j) = some (j + 1)
  exact congrArg some (by omega)

/-- C3 witness: bib "7" on pages 2 and 5 of `exDocDupBib` resolves to
page 5. -/
theorem crea_indice_last_bib_wins_witness :
    alookup (crea_indice (some exDocDupBib)).by_bib "7" = some 5 :=
  crea_indice_last_bib_wins exDocDupBib "7" 1 4 (by decide) (by decide)
    (by rfl) (by rfl) (by decide)

/-- C4: a purely numeric query that is a key of `by_bib` resolves to its
bib page immediately, for every `by_name` — even one containing the same
normalized string as a key. -/
theorem cerca_bib_short_circuit (by_bib : List (String × Nat))
    (by_name : List (String × List Nat)) (query : String) (first_only : Bool)
    (p : Nat) (h1 : pyIsDigit query = true) (h2 : alookup by_bib query = some p) :
    cerca by_bib by_name query first_only = Risultato.Single p := by
  unfold cerca
  rw [if_pos ⟨h1, by rw [h2]; rfl⟩]
  rw [h2]
  rfl

/-- C4 witness: "12" is both a bib key (page 3) and a name key (page 9);
the bib page wins. -/
theorem cerca_bib_short_circuit_witness :
    cerca [("12", 3)] [("12", [9])] "12" false = Risultato.Single 3 :=
  cerca_bib_short_circuit [("12", 3)] [("12", [9])] "12" false 3 (by rfl) (by rfl)

/-- C5 (counterexample): a page text containing both "NUMERO PETTORALE: 42"
and, elsewhere, "pettorale 99" for which extraction does NOT return "42":
an earlier "NUMERO PETTORALE: 7" occurrence wins, because the first
pattern returns its leftmost match's capture. -/
theorem extract_bib_precedence_cex :
    extract_bib_from_text
        "NUMERO PETTORALE: 7 NUMERO PETTORALE: 42 pettorale 99" = some "7" ∧
    isSubstr "NUMERO PETTORALE: 42".data
        "NUMERO PETTORALE: 7 NUMERO PETTORALE: 42 pettorale 99".data = true ∧
    isSubstr "pettorale 99".data
        "NUMERO PETTORALE: 7 NUMERO PETTORALE: 42 pettorale 99".data = true :=
  ⟨rfl, rfl, rfl⟩

/-- C5 (amended): the three label patterns are tried in fixed order
("numero pettorale", then "pettorale", then "n°/no pettorale") and the
capture of the leftmost match of the first pattern that matches is
returned: pattern 1's capture when it matches; pattern 2's capture when
pattern 1 fails and pattern 2 matches; pattern 3's capture when patterns
1 and 2 fail and pattern 3 matches; `none` when all three fail.  A text
containing "NUMERO PETTORALE: 42" and elsewhere "pettorale 99" returns
"42" provided that occurrence is the leftmost "numero pettorale" match;
"pettorale 1" is resolved by pattern 2 alone and "nopettorale42" by
pattern 3 alone. -/
theorem extract_bib_pattern_order :
    (∀ (t : String) (d : List Char), searchNumPett (flattenWS t) = some d →
        extract_bib_from_text t = some ⟨d⟩) ∧
    (∀ (t : String) (d : List Char), searchNumPett (flattenWS t) = none →
        searchPett none (flattenWS t) = some d →
        extract_bib_from_text t = some ⟨d⟩) ∧
    (∀ (t : String) (d : List Char), searchNumPett (flattenWS t) = none →
        searchPett none (flattenWS t) = none →
        searchNoPett none (flattenWS t) = some d →
        extract_bib_from_text t = some ⟨d⟩) ∧
    (∀ t : String, searchNumPett (flattenWS t) = none →
        searchPett none (flattenWS t) = none →
        searchNoPett none (flattenWS t) = none →
        extract_bib_from_text t = none) ∧
    extract_bib_from_text "NUMERO PETTORALE: 42 e poi pettorale 99" = some "42" ∧
    (extract_bib_from_text "pettorale 1" = some "1" ∧
      searchNumPett (flattenWS "pettorale 1") = none) ∧
    (extract_bib_from_text "nopettorale42" = some "42" ∧
      searchNumPett (flattenWS "nopettorale42") = none ∧
      searchPett none (flattenWS "nopettorale42") = none) ∧
    extract_bib_from_text "nessun dato qui" = none := by
  refine ⟨?_, ?_, ?_, ?_, rfl, ⟨rfl, rfl⟩, ⟨rfl, rfl, rfl⟩, rfl⟩
  · intro t d h
    simp only [extract_bib_from_text]
    rw [h]
  · intro t d h1 h2
    simp only [extract_bib_from_text]
    rw [h1, h2]
  · intro t d h1 h2 h3
    simp only [extract_bib_from_text]
    rw [h1, h2, h3]
  · intro t h1 h2 h3
    simp only [extract_bib_from_text]
    rw [h1, h2, h3]

/-- C5 witness: each cascade stage at a concrete input — pattern 1's
capture, pattern 2's capture once pattern 1 fails, and pattern 3's
capture once patterns 1 and 2 fail. -/
theorem extract_bib_pattern_order_witness :
    extract_bib_from_text "NUMERO PETTORALE: 42" = some "42" ∧
    extract_bib_from_text "il pettorale 9" = some "9" ∧
    extract_bib_from_text "nopettorale42" = some "42" :=
  ⟨extract_bib_pattern_order.1 "NUMERO PETTORALE: 42" "42".data (by rfl),
   extract_bib_pattern_order.2.1 "il pettorale 9" "9".data (by rfl) (by rfl),
   extract_bib_pattern_order.2.2.1 "nopettorale42" "42".data (by rfl) (by rfl)
     (by rfl)⟩

/-- C6: the normaliser is idempotent on every string, and the empty string
maps to the empty string (totality and determinism are inherent in `norm`
being a Lean function). -/
theorem norm_idempotent_total :
    (∀ s : String, norm (norm s) = norm s) ∧ norm "" = "" :=
  ⟨norm_norm, rfl⟩

/-- C7: substring matching runs only when the exact normalized-key lookup
yields nothing, and then produces exactly the sorted duplicate-free union
of the page lists of the keys containing the query as a substring; querying
"ang" against the sole key "maria angela rossi" returns its pages. -/
theorem cerca_substring_fallback :
    (∀ (bn : List (String × List Nat)) (qn : String) (ps : List Nat),
        alookup bn qn = some ps → ps.isEmpty = false → name_pages bn qn = ps) ∧
    (∀ (bn : List (String × List Nat)) (qn : String),
        ((alookup bn qn).getD []).isEmpty = true →
        name_pages bn qn =
          sortDedup ((bn.filter fun kv => isSubstr qn.data kv.1.data).flatMap
            fun kv => kv.2) ∧
        List.Chain' (· < ·) (name_pages bn qn) ∧
        (name_pages bn qn).Nodup ∧
        (∀ p, p ∈ name_pages bn qn ↔
          ∃ kv ∈ bn, isSubstr qn.data kv.1.data = true ∧ p ∈ kv.2)) ∧
    cerca [] [("maria angela rossi", [4])] "ang" false = Risultato.Single 4 := by
  refine ⟨?_, ?_, rfl⟩
  · intro bn qn ps h hne
    simp only [name_pages, h, Option.getD_some, hne]
    rfl
  · intro bn qn hempty
    have hemp2 : (alookup bn qn).getD [] = [] := by
      cases h : (alookup bn qn).getD [] with
      | nil => rfl
      | cons a t => rw [h] at hempty; exact absurd hempty (by simp)
    have heq : name_pages bn qn =
        sortDedup ((bn.filter fun kv => isSubstr qn.data kv.1.data).flatMap
          fun kv => kv.2) := by
      simp only [name_pages, hemp2]
      rfl
    refine ⟨heq, ?_, ?_, ?_⟩
    · rw [heq]
      exact chain'_sortDedup _
    · rw [heq]
      exact nodup_of_chain'_lt _ (chain'_sortDedup _)
    · intro p
      rw [heq, mem_sortDedup, List.mem_flatMap]
      constructor
      · rintro ⟨kv, hkv, hp⟩
        obtain ⟨hmem, hsub⟩ := List.mem_filter.mp hkv
        exact ⟨kv, hmem, hsub, hp⟩
      · rintro ⟨kv, hmem, hsub, hp⟩
        exact ⟨kv, List.mem_filter.mpr ⟨hmem, hsub⟩, hp⟩

/-- C7 witness: the exact-hit branch and the substring branch at concrete
indices. -/
theorem cerca_substring_fallback_witness :
    name_pages [("maria angela rossi", [4])] "ang" =
      sortDedup ((([("maria angela rossi", [4])]).filter
        (fun kv => isSubstr "ang".data kv.1.data)).flatMap fun kv => kv.2) ∧
    name_pages [("mario rossi", [5])] "mario rossi" = [5] :=
  ⟨(cerca_substring_fallback.2.1 [("maria angela rossi", [4])] "ang" (by rfl)).1,
   cerca_substring_fallback.1 [("mario rossi", [5])] "mario rossi" [5]
     (by rfl) (by rfl)⟩

/-- C8: on a built index, when the bib branch does not fire and name
resolution finds more than one page, `first_only = false` yields
`Multiple pages` with `pages` strictly ascending, and `first_only = true`
yields `Single` of the head, which is the least candidate. -/
theorem cerca_ambiguity_handling (doc : List (Option PageData)) (q : String)
    (pages : List Nat)
    (hb : (pyIsDigit q && (alookup (crea_indice (some doc)).by_bib q).isSome) = false)
    (hp : name_pages (crea_indice (some doc)).by_name (norm q) = pages)
    (hlen : 1 < pages.length) :
    cerca (crea_indice (some doc)).by_bib (crea_indice (some doc)).by_name q false =
      Risultato.Multiple pages ∧
    cerca (crea_indice (some doc)).by_bib (crea_indice (some doc)).by_name q true =
      Risultato.Single (pages.headD 0) ∧
    List.Chain' (· < ·) pages ∧
    (∀ p ∈ pages, pages.headD 0 ≤ p) := by
  have hnotb : ¬(pyIsDigit q = true ∧
      ((alookup (crea_indice (some doc)).by_bib q).isSome = true)) := by
    rintro ⟨h1, h2⟩
    rw [h1, h2] at hb
    exact absurd hb (by simp)
  have hne : pages.isEmpty = false := by
    cases pages with
    | nil => simp at hlen
    | cons a t => rfl
  have hchain : List.Chain' (· < ·) pages := by
    rw [← hp]
    by_cases hex : ((alookup (crea_indice (some doc)).by_name (norm q)).getD []).isEmpty = true
    · rw [(cerca_substring_fallback.2.1 _ _ hex).1]
      exact chain'_sortDedup _
    · cases halo : alookup (crea_indice (some doc)).by_name (norm q) with
      | none => rw [halo] at hex; exact absurd rfl hex
      | some vs =>
        have hvs : name_pages (crea_indice (some doc)).by_name (norm q) = vs := by
          rw [halo] at hex
          apply cerca_substring_fallback.1 _ _ _ halo
          cases hv : vs with
          | nil => rw [hv] at hex; exact absurd rfl hex
          | cons a t => rfl
        rw [hvs]
        obtain ⟨kv, hkv, hkv2⟩ := alookup_mem _ _ _ halo
        rw [← hkv2]
        exact (crea_indice_by_name_inv (some doc) kv hkv).2
  refine ⟨?_, ?_, hchain, headD_le_of_chain' pages hchain⟩
  · unfold cerca
    rw [if_neg hnotb]
    simp only [hp, hne]
    rw [if_neg (by simp), if_pos ⟨hlen, by simp⟩]
  · unfold cerca
    rw [if_neg hnotb]
    simp only [hp, hne]
    rw [if_neg (by simp), if_neg (by rintro ⟨_, h⟩; simp at h)]

/-- C8 witness: the name "MARIO ROSSI" of `exDocDupName` maps to pages
[3, 7]; `first_only = false` gives `Multiple [3, 7]`, `first_only = true`
gives `Single 3`. -/
theorem cerca_ambiguity_handling_witness :
    cerca (crea_indice (some exDocDupName)).by_bib
        (crea_indice (some exDocDupName)).by_name "MARIO ROSSI" false =
      Risultato.Multiple [3, 7] ∧
    cerca (crea_indice (some exDocDupName)).by_bib
        (crea_indice (some exDocDupName)).by_name "MARIO ROSSI" true =
      Risultato.Single ([3, 7].headD 0) ∧
    List.Chain' (· < ·) [3, 7] ∧
    (∀ p ∈ [3, 7], [3, 7].headD 0 ≤ p) :=
  cerca_ambiguity_handling exDocDupName "MARIO ROSSI" [3, 7] (by rfl) (by rfl)
    (by decide)

/-- C9: page materialization returns nothing for every page number outside
`[1, page_count]` and for an unopenable source, and returns the single
requested page (never a partial or empty document) exactly when the page
number is in range. -/
theorem estrai_pagina_range (pages : List String) (n : Int) :
    ((n < 1 ∨ (pages.length : Int) < n) → estrai_pagina (some pages) n = none) ∧
    estrai_pagina none n = none ∧
    (1 ≤ n → n ≤ (pages.length : Int) → (estrai_pagina (some pages) n).isSome = true) := by
  refine ⟨?_, rfl, ?_⟩
  · intro h
    simp only [estrai_pagina]
    rw [if_pos (by omega)]
  · intro h1 h2
    simp only [estrai_pagina]
    rw [if_neg (by omega)]
    have hlt : (n - 1).toNat < pages.length := by omega
    rw [List.get?_eq_get hlt]
    rfl

/-- C9 witness: a two-page document at pages 0, 3 (failures, also for the
unopenable source) and page 1 (success). -/
theorem estrai_pagina_range_witness :
    estrai_pagina (some ["a", "b"]) 0 = none ∧
    estrai_pagina (some ["a", "b"]) 3 = none ∧
    estrai_pagina (none : Option (List String)) 1 = none ∧
    (estrai_pagina (some ["a", "b"]) 1).isSome = true :=
  ⟨(estrai_pagina_range ["a", "b"] 0).1 (by omega),
   (estrai_pagina_range ["a", "b"] 3).1 (by norm_num),
   (estrai_pagina_range ["a", "b"] 1).2.1,
   (estrai_pagina_range ["a", "b"] 1).2.2 (by omega) (by norm_num)⟩

/-- C10: every key of the `by_name` mapping of a built index is a fixpoint
of the normaliser, because each key is inserted as `norm` of an extracted
string and `norm` is idempotent. -/
theorem by_name_keys_norm_fixpoint (doc : Option (List (Option PageData)))
    (kv : String × List Nat) (h : kv ∈ (crea_indice doc).by_name) :
    norm kv.1 = kv.1 :=
  (crea_indice_by_name_inv doc kv h).1

/-- C10 witness: the key "mario rossi" built from the page name
"MARIO ROSSI". -/
theorem by_name_keys_norm_fixpoint_witness :
    norm ("mario rossi", [1]).1 = ("mario rossi", [1]).1 :=
  by_name_keys_norm_fixpoint (some [some ⟨"", ["MARIO ROSSI\n"]⟩])
    ("mario rossi", [1]) (by decide)

end Attestati
